import Mathlib

/-!
Verification of the text-segmentation library (bt_string_utils).

Texts are modelled as `List Char` (a valid UTF-8 buffer is exactly a
sequence of Unicode scalar values); byte offsets are recovered through
`utf8Len`, the length of a character's UTF-8 encoding.  The byte-scanning
functions (`remove_tags`, `get_first_of_split`) are modelled directly on
byte lists (`List Nat`), with `utf8Encode` mapping a text to its bytes.
Loops of the source that are not structurally recursive are modelled with
an explicit fuel parameter; `none` means the loop has not finished within
the given fuel, and a result that is `none` for every fuel is a
non-terminating execution of the source.
-/

/-- UTF-8 encoded length of one scalar value (Rust `char::len_utf8`). -/
def utf8Len (c : Char) : Nat :=
  if c.toNat < 0x80 then 1
  else if c.toNat < 0x800 then 2
  else if c.toNat < 0x10000 then 3
  else 4

/-- Byte length of a text (Rust `str::len`). -/
def byteLen : List Char → Nat
  | [] => 0
  | c :: cs => utf8Len c + byteLen cs

/-- Rust `char::is_whitespace`: the Unicode `White_Space` property. -/
def rustIsWhitespace (c : Char) : Bool :=
  (0x09 ≤ c.toNat && c.toNat ≤ 0x0D) || c.toNat = 0x20 || c.toNat = 0x85 ||
  c.toNat = 0xA0 || c.toNat = 0x1680 ||
  (0x2000 ≤ c.toNat && c.toNat ≤ 0x200A) ||
  c.toNat = 0x2028 || c.toNat = 0x2029 || c.toNat = 0x202F ||
  c.toNat = 0x205F || c.toNat = 0x3000

/-- In-order concatenation of a sequence of chunks. -/
def concatAll : List (List Char) → List Char
  | [] => []
  | l :: ls => l ++ concatAll ls

/-!
`split_into_chunks` (src/lib2.rs).  The loop keeps `offset` at a character
boundary, so the inner `while !from_utf8(..).is_ok { valid_end -= 1 }`
back-off selects the largest character boundary `≤ offset + chunk_size`:
one iteration takes the longest prefix of whole characters whose total
byte length fits the budget (`chunkTake`) and continues on the rest.  The
outer `while offset < bytes.len()` is modelled with fuel: when an
iteration makes no progress (`chunkTake` returns an empty chunk, exactly
as the source pushes an empty chunk and leaves `offset` unchanged), every
amount of fuel is exhausted, reflecting the source's infinite loop.
-/

/-- One iteration of the chunk loop: the longest prefix of whole characters
with byte length at most `budget`, and the remaining characters. -/
def chunkTake : Nat → List Char → List Char × List Char
  | _, [] => ([], [])
  | budget, c :: cs =>
    if utf8Len c ≤ budget then
      let p := chunkTake (budget - utf8Len c) cs
      (c :: p.1, p.2)
    else ([], c :: cs)

/-- `split_into_chunks(content, chunk_size_bytes)` with explicit fuel for the
outer loop; `none` models an execution that does not finish. -/
def splitIntoChunksF : Nat → Nat → List Char → Option (List (List Char))
  | 0, _, l => if l = [] then some [] else none
  | fuel + 1, budget, l =>
    if l = [] then some []
    else
      match splitIntoChunksF fuel budget (chunkTake budget l).2 with
      | none => none
      | some rest => some ((chunkTake budget l).1 :: rest)

theorem chunkTake_append : ∀ (budget : Nat) (l : List Char),
    (chunkTake budget l).1 ++ (chunkTake budget l).2 = l := by
  intro budget l
  induction l generalizing budget with
  | nil => simp [chunkTake]
  | cons c cs ih =>
    by_cases h : utf8Len c ≤ budget
    · simp [chunkTake, h, ih]
    · simp [chunkTake, h]

theorem chunkTake_byteLen_le : ∀ (budget : Nat) (l : List Char),
    byteLen (chunkTake budget l).1 ≤ budget := by
  intro budget l
  induction l generalizing budget with
  | nil => simp [chunkTake, byteLen]
  | cons c cs ih =>
    by_cases h : utf8Len c ≤ budget
    · have := ih (budget - utf8Len c)
      simp only [chunkTake, h, if_true, byteLen]
      omega
    · simp [chunkTake, h, byteLen]

theorem chunkTake_fst_ne_nil (budget : Nat) (c : Char) (cs : List Char)
    (h : utf8Len c ≤ budget) : (chunkTake budget (c :: cs)).1 ≠ [] := by
  simp [chunkTake, h]

/-- When an iteration makes no progress the loop never finishes. -/
theorem splitIntoChunksF_stuck : ∀ (fuel budget : Nat) (l : List Char),
    l ≠ [] → (chunkTake budget l).1 = [] →
    splitIntoChunksF fuel budget l = none := by
  intro fuel
  induction fuel with
  | zero => intro budget l hl _; simp [splitIntoChunksF, hl]
  | succ fuel ih =>
    intro budget l hl hstuck
    have hrest : (chunkTake budget l).2 = l := by
      have := chunkTake_append budget l
      rw [hstuck] at this
      simpa using this
    simp only [splitIntoChunksF, hl, if_false]
    rw [hrest, ih budget l hl hstuck]

theorem splitIntoChunksF_ok : ∀ (fuel budget : Nat) (l : List Char),
    l.length ≤ fuel → (∀ c ∈ l, utf8Len c ≤ budget) →
    ∃ chunks, splitIntoChunksF fuel budget l = some chunks
      ∧ concatAll chunks = l
      ∧ ∀ ch ∈ chunks, ch ≠ [] ∧ byteLen ch ≤ budget := by
  intro fuel
  induction fuel with
  | zero =>
    intro budget l hlen _
    have : l = [] := List.length_eq_zero.mp (Nat.le_zero.mp hlen)
    subst this
    exact ⟨[], rfl, rfl, by simp⟩
  | succ fuel ih =>
    intro budget l hlen hfit
    match l with
    | [] => exact ⟨[], rfl, rfl, by simp⟩
    | c :: cs =>
      have hc : utf8Len c ≤ budget := hfit c (by simp)
      have hpre : (chunkTake budget (c :: cs)).1 ≠ [] :=
        chunkTake_fst_ne_nil budget c cs hc
      have happ := chunkTake_append budget (c :: cs)
      have hlen2 : (chunkTake budget (c :: cs)).2.length ≤ fuel := by
        have h1 : (chunkTake budget (c :: cs)).1.length +
            (chunkTake budget (c :: cs)).2.length = (c :: cs).length := by
          rw [← List.length_append, happ]
        have h2 : 1 ≤ (chunkTake budget (c :: cs)).1.length := by
          cases hx : (chunkTake budget (c :: cs)).1 with
          | nil => exact absurd hx hpre
          | cons a l2 => simp
        simp only [List.length_cons] at h1 hlen
        omega
      have hfit2 : ∀ d ∈ (chunkTake budget (c :: cs)).2, utf8Len d ≤ budget := by
        intro d hd
        exact hfit d (by rw [← happ]; exact List.mem_append_right _ hd)
      obtain ⟨chunks, hsome, hcat, hprops⟩ := ih budget _ hlen2 hfit2
      refine ⟨(chunkTake budget (c :: cs)).1 :: chunks, ?_, ?_, ?_⟩
      · simp only [splitIntoChunksF]
        rw [hsome]
        simp
      · simp only [concatAll]
        rw [hcat, happ]
      · intro ch hch
        rcases List.mem_cons.mp hch with h | h
        · subst h
          exact ⟨hpre, chunkTake_byteLen_le budget (c :: cs)⟩
        · exact hprops ch h

/-- Claim C1 (amended): for every text and every byte budget at least the
UTF-8 length of each character of the text (any budget ≥ 4 qualifies, as
does any positive budget on ASCII-only text), `split_into_chunks`
terminates (fuel `text.length` suffices) and returns chunks whose in-order
concatenation is byte-identical to the text, each a non-empty sequence of
whole characters of byte length at most the budget; the empty text gives
the empty sequence. -/
theorem c1_split_into_chunks_amended (budget : Nat) (text : List Char)
    (hpos : 0 < budget) (hfit : ∀ c ∈ text, utf8Len c ≤ budget) :
    ∃ chunks, splitIntoChunksF text.length budget text = some chunks
      ∧ concatAll chunks = text
      ∧ (∀ ch ∈ chunks, ch ≠ [] ∧ byteLen ch ≤ budget)
      ∧ (text = [] → chunks = []) := by
  obtain ⟨chunks, hsome, hcat, hprops⟩ :=
    splitIntoChunksF_ok text.length budget text (Nat.le_refl _) hfit
  refine ⟨chunks, hsome, hcat, hprops, ?_⟩
  intro h
  subst h
  have : (some [] : Option (List (List Char))) = some chunks := by
    rw [← hsome]; rfl
  exact (Option.some_inj.mp this).symm

/-- Claim C1, counterexample to the unamended claim: with budget 1 and the
one-character text "é" (two UTF-8 bytes) the function returns nothing for
the canonical fuel — and indeed for any fuel, since the loop iteration
produces an empty chunk without advancing the offset. -/
theorem c1_counterexample :
    splitIntoChunksF [Char.ofNat 0xE9].length 1 [Char.ofNat 0xE9] = none
    ∧ chunkTake 1 [Char.ofNat 0xE9] = ([], [Char.ofNat 0xE9]) := by
  constructor
  · exact splitIntoChunksF_stuck 1 1 [Char.ofNat 0xE9] (by simp) (by decide)
  · decide

/-- Claim C1, witness: budget 2 on the text "abc". -/
theorem c1_witness :
    ∃ chunks, splitIntoChunksF 3 2 [Char.ofNat 97, Char.ofNat 98, Char.ofNat 99]
        = some chunks
      ∧ concatAll chunks = [Char.ofNat 97, Char.ofNat 98, Char.ofNat 99]
      ∧ (∀ ch ∈ chunks, ch ≠ [] ∧ byteLen ch ≤ 2)
      ∧ ([Char.ofNat 97, Char.ofNat 98, Char.ofNat 99] = ([] : List Char) →
          chunks = []) :=
  c1_split_into_chunks_amended 2 [Char.ofNat 97, Char.ofNat 98, Char.ofNat 99]
    (by decide) (by decide)

/-!
`word_count` (src/lib2.rs): split on Unicode whitespace, trim leading and
trailing ASCII punctuation other than apostrophe and hyphen from each
token, count each all-CJK token as its number of codepoints and every
other non-empty trimmed token as 1.
-/

/-- Rust `char::is_ascii_punctuation`. -/
def isAsciiPunct (c : Char) : Bool :=
  (0x21 ≤ c.toNat && c.toNat ≤ 0x2F) || (0x3A ≤ c.toNat && c.toNat ≤ 0x40) ||
  (0x5B ≤ c.toNat && c.toNat ≤ 0x60) || (0x7B ≤ c.toNat && c.toNat ≤ 0x7E)

/-- The trim predicate of `word_count`: ASCII punctuation other than
apostrophe (0x27) and hyphen (0x2D). -/
def trimmablePunct (c : Char) : Bool :=
  isAsciiPunct c && !(c.toNat = 39) && !(c.toNat = 45)

/-- `is_cjk` (src/lib2.rs): the listed CJK Unicode block ranges. -/
def isCjk (c : Char) : Bool :=
  (0x4E00 ≤ c.toNat && c.toNat ≤ 0x9FFF) ||
  (0x3400 ≤ c.toNat && c.toNat ≤ 0x4DBF) ||
  (0x20000 ≤ c.toNat && c.toNat ≤ 0x2A6DF) ||
  (0x2A700 ≤ c.toNat && c.toNat ≤ 0x2B73F) ||
  (0x2B740 ≤ c.toNat && c.toNat ≤ 0x2B81F) ||
  (0x2B820 ≤ c.toNat && c.toNat ≤ 0x2CEAF) ||
  (0xF900 ≤ c.toNat && c.toNat ≤ 0xFAFF) ||
  (0x2F800 ≤ c.toNat && c.toNat ≤ 0x2FA1F)

/-- Removes the maximal suffix of characters satisfying `p`. -/
def dropTrailP (p : Char → Bool) : List Char → List Char
  | [] => []
  | c :: cs =>
    if dropTrailP p cs = [] && p c then [] else c :: dropTrailP p cs

/-- Rust `str::trim_matches` with the punctuation predicate: strip matching
characters from both ends. -/
def trimPunct (tok : List Char) : List Char :=
  dropTrailP trimmablePunct (tok.dropWhile trimmablePunct)

/-- Rust `str::split_whitespace`: the maximal non-whitespace runs, in
order (the accumulator carries the current run, reversed). -/
def splitWsAux : List Char → List Char → List (List Char)
  | [], acc => if acc = [] then [] else [acc.reverse]
  | c :: cs, acc =>
    if rustIsWhitespace c then
      if acc = [] then splitWsAux cs [] else acc.reverse :: splitWsAux cs []
    else splitWsAux cs (c :: acc)

def splitWs (s : List Char) : List (List Char) := splitWsAux s []

/-- The body of `word_count`'s token loop. -/
def wordCountStep (count : Nat) (token : List Char) : Nat :=
  let trimmed := trimPunct token
  if trimmed = [] then count
  else if trimmed.all isCjk then count + trimmed.length
  else count + 1

/-- `word_count` (src/lib2.rs). -/
def wordCount (text : List Char) : Nat := (splitWs text).foldl wordCountStep 0

/-- Per-token contribution as the spec words it: trim the punctuation; a
non-empty all-CJK token adds its codepoint count, any other non-empty
trimmed token adds exactly 1. -/
def specTokenScore (token : List Char) : Nat :=
  let trimmed := trimPunct token
  if trimmed = [] then 0
  else if trimmed.all isCjk then trimmed.length
  else 1

theorem wordCountStep_eq (count : Nat) (token : List Char) :
    wordCountStep count token = count + specTokenScore token := by
  simp only [wordCountStep, specTokenScore]
  split
  · simp
  · split <;> rfl

theorem wordCount_foldl : ∀ (toks : List (List Char)) (acc : Nat),
    toks.foldl wordCountStep acc = acc + (toks.map specTokenScore).sum := by
  intro toks
  induction toks with
  | nil => intro acc; simp
  | cons t ts ih =>
    intro acc
    simp only [List.foldl_cons, List.map_cons, List.sum_cons]
    rw [ih, wordCountStep_eq]
    omega

theorem splitWsAux_all_ws : ∀ (cs : List Char),
    (∀ c ∈ cs, rustIsWhitespace c = true) → splitWsAux cs [] = [] := by
  intro cs
  induction cs with
  | nil => intro _; rfl
  | cons c cs ih =>
    intro h
    have hc : rustIsWhitespace c = true := h c (by simp)
    simp only [splitWsAux, hc, if_true]
    exact ih (fun d hd => h d (by simp [hd]))

/-- Claim C6: `word_count` splits on Unicode whitespace, trims the
leading/trailing ASCII punctuation except apostrophe and hyphen from each
token, and adds the codepoint count of an all-CJK trimmed token and 1 for
any other non-empty trimmed token; `count_words("state-of-the-art") = 1`,
`count_words("don't stop") = 2`, `count_words("你好世界") = 4`, and empty
or whitespace-only input yields 0. -/
theorem c6_word_count :
    (∀ s, wordCount s = ((splitWs s).map specTokenScore).sum)
    ∧ wordCount ['s', 't', 'a', 't', 'e', '-', 'o', 'f', '-', 't', 'h',
        'e', '-', 'a', 'r', 't'] = 1
    ∧ wordCount ['d', 'o', 'n', Char.ofNat 39, 't', ' ', 's', 't', 'o',
        'p'] = 2
    ∧ wordCount ['你', '好', '世', '界'] = 4
    ∧ wordCount [] = 0
    ∧ (∀ s, (∀ c ∈ s, rustIsWhitespace c = true) → wordCount s = 0) := by
  refine ⟨?_, by decide, by decide, by decide, by decide, ?_⟩
  · intro s
    simp only [wordCount]
    rw [wordCount_foldl]
    omega
  · intro s h
    simp only [wordCount, splitWs]
    rw [splitWsAux_all_ws s h]
    rfl

/-!
`count_paragraphs` (src/lib2.rs): normalize `\r\n` then bare `\r` to `\n`
(two `replace` passes in the source), count the `\n` markers, and apply
the piecewise rule.  `specNormalize` is the spec's one-pass description of
the normalization ("normalize all newline sequences (`\r\n`, bare `\r`)
to a single newline marker"); `normalizeTwoPass_eq` shows the source's two-pass
normalization computes it.
-/

def nlChar : Char := Char.ofNat 10

def crChar : Char := Char.ofNat 13

/-- Rust `text.replace("\r\n", "\n")`: leftmost non-overlapping matches. -/
def replaceCRLF : List Char → List Char
  | [] => []
  | [c] => [c]
  | c :: d :: cs =>
    if c = crChar then
      if d = nlChar then nlChar :: replaceCRLF cs
      else c :: replaceCRLF (d :: cs)
    else c :: replaceCRLF (d :: cs)

/-- Rust `text.replace('\r', "\n")` on the first pass's output. -/
def replaceCR (s : List Char) : List Char :=
  s.map (fun c => if c = crChar then nlChar else c)

/-- One-pass normalization as the spec words it: each `\r\n` pair and each
bare `\r` becomes a single `\n`. -/
def specNormalize : List Char → List Char
  | [] => []
  | [c] => if c = crChar then [nlChar] else [c]
  | c :: d :: cs =>
    if c = crChar then
      if d = nlChar then nlChar :: specNormalize cs
      else nlChar :: specNormalize (d :: cs)
    else c :: specNormalize (d :: cs)

/-- `count_paragraphs` (src/lib2.rs). -/
def countParagraphs (s : List Char) : Nat :=
  if s = [] then 0
  else
    let normalized := replaceCR (replaceCRLF s)
    let k := normalized.count nlChar
    if k = 0 then 1
    else if normalized.head? = some nlChar then k
    else k + 1

theorem nl_ne_cr : nlChar ≠ crChar := by decide

theorem normalizeTwoPass_eq : ∀ s, replaceCR (replaceCRLF s) = specNormalize s := by
  intro s
  induction s using replaceCRLF.induct with
  | case1 => rfl
  | case2 c =>
    by_cases hc : c = crChar
    · subst hc
      simp [replaceCRLF, specNormalize, replaceCR]
    · simp [replaceCRLF, specNormalize, replaceCR, hc]
  | case3 cs ih =>
    simp only [replaceCR] at ih
    simp [replaceCRLF, specNormalize, replaceCR, nl_ne_cr, ih]
  | case4 d cs hd ih =>
    simp only [replaceCR] at ih
    simp [replaceCRLF, specNormalize, replaceCR, hd, ih]
  | case5 c d cs hc ih =>
    simp only [replaceCR] at ih
    simp [replaceCRLF, specNormalize, replaceCR, hc, ih]

/-- Claim C7: `count_paragraphs` returns 0 for empty input; after
normalizing `\r\n` and bare `\r` to `\n` it returns 1 when there is no
marker, the marker count when the normalized text begins with a marker,
and marker count + 1 otherwise; `count_paragraphs("A\n\nB") = 3` and
`count_paragraphs("A\r\nB\nC\rD") = 4`. -/
theorem c7_count_paragraphs :
    countParagraphs [] = 0
    ∧ countParagraphs ['A', nlChar, nlChar, 'B'] = 3
    ∧ countParagraphs ['A', crChar, nlChar, 'B', nlChar, 'C', crChar, 'D'] = 4
    ∧ (∀ s, s ≠ [] → (specNormalize s).count nlChar = 0 →
        countParagraphs s = 1)
    ∧ (∀ s, (specNormalize s).head? = some nlChar →
        countParagraphs s = (specNormalize s).count nlChar)
    ∧ (∀ s, s ≠ [] → (specNormalize s).count nlChar ≠ 0 →
        (specNormalize s).head? ≠ some nlChar →
        countParagraphs s = (specNormalize s).count nlChar + 1) := by
  refine ⟨by decide, by decide, by decide, ?_, ?_, ?_⟩
  · intro s hs h0
    have hn := normalizeTwoPass_eq s
    simp [countParagraphs, hs, hn, h0]
  · intro s hhead
    have hs : s ≠ [] := by
      intro h
      subst h
      simp [specNormalize] at hhead
    have hn := normalizeTwoPass_eq s
    have hk : (specNormalize s).count nlChar ≠ 0 := by
      cases hsp : specNormalize s with
      | nil => rw [hsp] at hhead; simp at hhead
      | cons a t =>
        rw [hsp] at hhead
        simp only [List.head?] at hhead
        have : a = nlChar := by
          cases hhead
          rfl
        subst this
        simp [List.count_cons]
    simp [countParagraphs, hs, hn, hk, hhead]
  · intro s hs hk hhead
    have hn := normalizeTwoPass_eq s
    simp [countParagraphs, hs, hn, hk, hhead]

/-!
`split_upto_n_by_word` (src/lib.rs).  The source scans `char_indices` to
collect the `[start, end)` byte ranges of the maximal non-whitespace runs
(`findWords`), precomputes a byte-indexed whitespace map in which only the
FIRST byte of each whitespace character is marked (`isSpaceAt`), then for
each group extends the start of its first word backwards over marked
bytes (`backExtend`) and slices from there to the end of its last word.
All byte arithmetic of the source is reproduced on `List Char` through
`utf8Len` offsets.
-/

/-- The `char_indices` scan of `split_upto_n_by_word` collecting word
ranges: `i` is the current byte offset, `inw`/`start` the loop state. -/
def wordsAux : List Char → Nat → Bool → Nat → List (Nat × Nat)
  | [], i, inw, start => if inw then [(start, i)] else []
  | c :: cs, i, inw, start =>
    if rustIsWhitespace c then
      if inw then (start, i) :: wordsAux cs (i + utf8Len c) false start
      else wordsAux cs (i + utf8Len c) false start
    else
      if inw then wordsAux cs (i + utf8Len c) true start
      else wordsAux cs (i + utf8Len c) true i

def findWords (s : List Char) : List (Nat × Nat) := wordsAux s 0 false 0

/-- The source's `is_space` byte map: true exactly at the first byte of a
whitespace character (bytes inside a multi-byte character are false). -/
def isSpaceAt : List Char → Nat → Bool
  | [], _ => false
  | c :: cs, i =>
    if i = 0 then rustIsWhitespace c
    else if i < utf8Len c then false
    else isSpaceAt cs (i - utf8Len c)

/-- The `while start_idx > 0 && is_space[start_idx - 1]` loop. -/
def backExtend (s : List Char) : Nat → Nat
  | 0 => 0
  | i + 1 => if isSpaceAt s i then backExtend s i else i + 1

/-- The slice `&s[a..b]` as whole characters (`a`, `b` are byte offsets;
the source only slices at character boundaries). -/
def sliceChars : List Char → Nat → Nat → List Char
  | [], _, _ => []
  | c :: cs, a, b =>
    if 0 < a then sliceChars cs (a - utf8Len c) (b - utf8Len c)
    else if 0 < b then c :: sliceChars cs 0 (b - utf8Len c)
    else []

/-- `split_upto_n_by_word(s, n)` (src/lib.rs). -/
def splitUptoNByWord (s : List Char) (n : Nat) : List (List Char) :=
  let ws := findWords s
  let total := ws.length
  if total = 0 then []
  else
    let parts := min n total
    (List.range parts).map (fun i =>
      let sw := i * total / parts
      let ew := (i + 1) * total / parts - 1
      let st := backExtend s (ws.getD sw (0, 0)).1
      sliceChars s st (ws.getD ew (0, 0)).2)

/-- Number of maximal non-whitespace runs, as the spec words it (scan with
an "inside a run" flag, counting run starts). -/
def specRunCountAux : List Char → Bool → Nat
  | [], _ => 0
  | c :: cs, inRun =>
    if rustIsWhitespace c then specRunCountAux cs false
    else (if inRun then 0 else 1) + specRunCountAux cs true

def specRunCount (s : List Char) : Nat := specRunCountAux s false

theorem wordsAux_length : ∀ (cs : List Char) (i st : Nat) (inw : Bool),
    (wordsAux cs i inw st).length =
      (if inw then 1 else 0) + specRunCountAux cs inw := by
  intro cs
  induction cs with
  | nil =>
    intro i st inw
    cases inw <;> simp [wordsAux, specRunCountAux]
  | cons c cs ih =>
    intro i st inw
    by_cases hc : rustIsWhitespace c
    · cases inw <;>
        simp [wordsAux, specRunCountAux, hc, ih] <;> omega
    · cases inw <;>
        simp [wordsAux, specRunCountAux, hc, ih] <;> omega

theorem findWords_length (s : List Char) :
    (findWords s).length = specRunCount s := by
  simpa using wordsAux_length s 0 0 false

theorem wordsAux_all_ws : ∀ (cs : List Char) (i st : Nat),
    (∀ c ∈ cs, rustIsWhitespace c = true) → wordsAux cs i false st = [] := by
  intro cs
  induction cs with
  | nil => intro i st _; rfl
  | cons c cs ih =>
    intro i st h
    have hc := h c (by simp)
    simp only [wordsAux, hc, if_true]
    exact ih _ _ (fun d hd => h d (by simp [hd]))

/-- Claim C4: for every text and every n ≥ 1, `split_upto_n_by_word`
returns exactly `min n k` slices, where `k` is the number of maximal
non-whitespace runs (purely whitespace-delimited); empty or whitespace-only
text gives the empty sequence. -/
theorem c4_group_count (s : List Char) (n : Nat) (hn : 1 ≤ n) :
    (splitUptoNByWord s n).length = min n (specRunCount s)
    ∧ ((∀ c ∈ s, rustIsWhitespace c = true) → splitUptoNByWord s n = []) := by
  constructor
  · by_cases h : (findWords s).length = 0
    · simp [splitUptoNByWord, h, findWords_length s ▸ h]
    · simp only [splitUptoNByWord, h, if_false, List.length_map,
        List.length_range]
      rw [← findWords_length]
  · intro hws
    have h : findWords s = [] := wordsAux_all_ws s 0 0 hws
    simp [splitUptoNByWord, h]

/-- Claim C4, witness: the two-word text "a b" with n = 5. -/
theorem c4_witness :
    (splitUptoNByWord ['a', ' ', 'b'] 5).length =
      min 5 (specRunCount ['a', ' ', 'b'])
    ∧ ((∀ c ∈ ['a', ' ', 'b'], rustIsWhitespace c = true) →
        splitUptoNByWord ['a', ' ', 'b'] 5 = []) :=
  c4_group_count ['a', ' ', 'b'] 5 (by decide)

/-- Claim C3: with the two-byte whitespace character U+00A0 between two
words, the whitespace map marks only the character's first byte, the
backward extension therefore stops without absorbing it, and the
character is dropped from every group: concatenation does not reproduce
the text even though it has no trailing whitespace.  The spec (and the
source's own comment "include ALL whitespace before it") requires the
whitespace to lead the following group. -/
theorem c3_multibyte_whitespace_dropped :
    splitUptoNByWord ['a', Char.ofNat 0xA0, 'b'] 2 = [['a'], ['b']]
    ∧ concatAll (splitUptoNByWord ['a', Char.ofNat 0xA0, 'b'] 2)
        ≠ ['a', Char.ofNat 0xA0, 'b']
    ∧ rustIsWhitespace (Char.ofNat 0xA0) = true
    ∧ dropTrailP rustIsWhitespace ['a', Char.ofNat 0xA0, 'b']
        = ['a', Char.ofNat 0xA0, 'b']
    ∧ isSpaceAt ['a', Char.ofNat 0xA0, 'b'] 2 = false := by
  refine ⟨by decide, by decide, by decide, by decide, by decide⟩

theorem utf8Len_pos (c : Char) : 1 ≤ utf8Len c := by
  simp only [utf8Len]
  split <;> try omega
  split <;> try omega
  split <;> omega

theorem byteLen_all_one : ∀ (l : List Char),
    (∀ c ∈ l, utf8Len c = 1) → byteLen l = l.length := by
  intro l
  induction l with
  | nil => intro _; rfl
  | cons c cs ih =>
    intro h
    simp only [byteLen, List.length_cons, h c (by simp),
      ih (fun d hd => h d (by simp [hd]))]
    omega

theorem getLastD_congr : ∀ (l : List (Nat × Nat)) (a b : Nat × Nat),
    l ≠ [] → l.getLastD a = l.getLastD b := by
  intro l
  induction l with
  | nil => intro a b h; exact absurd rfl h
  | cons x xs ih =>
    intro a b _
    cases xs with
    | nil => rfl
    | cons y ys =>
      rw [List.getLastD_cons a x (y :: ys), List.getLastD_cons b x (y :: ys)]

theorem getD_last : ∀ (l : List (Nat × Nat)) (d : Nat × Nat),
    l ≠ [] → l.getD (l.length - 1) d = l.getLastD d := by
  intro l
  induction l with
  | nil => intro d h; exact absurd rfl h
  | cons x xs ih =>
    intro d _
    cases xs with
    | nil => rfl
    | cons y ys =>
      have h1 : (x :: y :: ys).length - 1 = ys.length + 1 := by simp
      rw [h1, List.getD_cons_succ]
      have h2 := ih d (by simp)
      simp only [List.length_cons, Nat.add_sub_cancel] at h2
      rw [h2, List.getLastD_cons d x (y :: ys)]
      exact getLastD_congr (y :: ys) d x (by simp)

theorem dropTrailP_eq_nil_iff (p : Char → Bool) : ∀ (l : List Char),
    dropTrailP p l = [] ↔ ∀ c ∈ l, p c = true := by
  intro l
  induction l with
  | nil => simp [dropTrailP]
  | cons c cs ih =>
    constructor
    · intro h
      simp only [dropTrailP] at h
      by_cases hcond : dropTrailP p cs = [] ∧ p c = true
      · intro d hd
        rcases List.mem_cons.mp hd with h1 | h1
        · subst h1; exact hcond.2
        · exact (ih.mp hcond.1) d h1
      · exfalso
        rcases hx : dropTrailP p cs with _ | ⟨y, ys⟩ <;>
          rcases hpc : p c with _ | _ <;>
          simp [hx, hpc] at h hcond
    · intro h
      have h1 : dropTrailP p cs = [] := ih.mpr (fun d hd => h d (by simp [hd]))
      simp [dropTrailP, h1, h c (by simp)]

theorem dropTrailP_exists_suffix (p : Char → Bool) : ∀ (l : List Char),
    ∃ suf, l = dropTrailP p l ++ suf := by
  intro l
  induction l with
  | nil => exact ⟨[], rfl⟩
  | cons c cs ih =>
    obtain ⟨suf, hsuf⟩ := ih
    by_cases hcond : dropTrailP p cs = [] ∧ p c = true
    · refine ⟨c :: cs, ?_⟩
      simp [dropTrailP, hcond.1, hcond.2]
    · have : dropTrailP p (c :: cs) = c :: dropTrailP p cs := by
        simp only [dropTrailP]
        rcases hx : dropTrailP p cs with _ | ⟨y, ys⟩ <;>
          rcases hpc : p c with _ | _ <;>
          simp_all
      rw [this]
      exact ⟨suf, by rw [List.cons_append, ← hsuf]⟩

theorem dropTrailP_cons_of_ne_nil (p : Char → Bool) (c : Char)
    (cs : List Char) (h : dropTrailP p cs ≠ []) :
    dropTrailP p (c :: cs) = c :: dropTrailP p cs := by
  simp only [dropTrailP]
  rcases hx : dropTrailP p cs with _ | ⟨y, ys⟩
  · exact absurd hx h
  · simp

theorem dropTrailP_cons_not_p (p : Char → Bool) (c : Char)
    (cs : List Char) (h : p c = false) :
    dropTrailP p (c :: cs) = c :: dropTrailP p cs := by
  simp only [dropTrailP]
  rcases hx : dropTrailP p cs with _ | ⟨y, ys⟩ <;> simp [h]

theorem specRunCountAux_false_pos : ∀ (cs : List Char),
    (∃ c ∈ cs, ¬ rustIsWhitespace c = true) → 0 < specRunCountAux cs false := by
  intro cs
  induction cs with
  | nil => intro h; simp at h
  | cons c cs ih =>
    intro h
    by_cases hc : rustIsWhitespace c
    · have : ∃ d ∈ cs, ¬ rustIsWhitespace d = true := by
        obtain ⟨d, hd, hdw⟩ := h
        rcases List.mem_cons.mp hd with h1 | h1
        · exact absurd (h1 ▸ hc) hdw
        · exact ⟨d, h1, hdw⟩
      simp only [specRunCountAux, hc, if_true]
      exact ih this
    · simp [specRunCountAux, hc]

theorem wordsAux_false_ne_nil (cs : List Char) (i st : Nat)
    (h : ∃ c ∈ cs, ¬ rustIsWhitespace c = true) :
    wordsAux cs i false st ≠ [] := by
  intro hnil
  have hlen := wordsAux_length cs i st false
  rw [hnil] at hlen
  simp at hlen
  have := specRunCountAux_false_pos cs h
  omega

theorem wordsAux_cons_ws_false (c : Char) (cs : List Char) (i st : Nat)
    (hc : rustIsWhitespace c = true) :
    wordsAux (c :: cs) i false st = wordsAux cs (i + utf8Len c) false st := by
  simp [wordsAux, hc]

theorem wordsAux_cons_ws_true (c : Char) (cs : List Char) (i st : Nat)
    (hc : rustIsWhitespace c = true) :
    wordsAux (c :: cs) i true st =
      (st, i) :: wordsAux cs (i + utf8Len c) false st := by
  simp [wordsAux, hc]

theorem wordsAux_cons_nws_false (c : Char) (cs : List Char) (i st : Nat)
    (hc : rustIsWhitespace c = false) :
    wordsAux (c :: cs) i false st = wordsAux cs (i + utf8Len c) true i := by
  simp [wordsAux, hc]

theorem wordsAux_cons_nws_true (c : Char) (cs : List Char) (i st : Nat)
    (hc : rustIsWhitespace c = false) :
    wordsAux (c :: cs) i true st = wordsAux cs (i + utf8Len c) true st := by
  simp [wordsAux, hc]

theorem wordsAux_true_head : ∀ (cs : List Char) (i st : Nat),
    ∃ e, (wordsAux cs i true st).head? = some (st, e) := by
  intro cs
  induction cs with
  | nil => intro i st; exact ⟨i, rfl⟩
  | cons c cs ih =>
    intro i st
    by_cases hc : rustIsWhitespace c
    · exact ⟨i, by simp [wordsAux, hc]⟩
    · simpa [wordsAux, hc] using ih (i + utf8Len c) st

theorem wordsAux_false_head : ∀ (cs : List Char) (i st : Nat),
    (∃ c ∈ cs, ¬ rustIsWhitespace c = true) →
    ∃ e, (wordsAux cs i false st).head? =
      some (i + byteLen (cs.takeWhile rustIsWhitespace), e) := by
  intro cs
  induction cs with
  | nil => intro i st h; simp at h
  | cons c cs ih =>
    intro i st h
    by_cases hc : rustIsWhitespace c
    · have hcs : ∃ d ∈ cs, ¬ rustIsWhitespace d = true := by
        obtain ⟨d, hd, hdw⟩ := h
        rcases List.mem_cons.mp hd with h1 | h1
        · exact absurd (h1 ▸ hc) hdw
        · exact ⟨d, h1, hdw⟩
      obtain ⟨e, he⟩ := ih (i + utf8Len c) st hcs
      refine ⟨e, ?_⟩
      rw [wordsAux_cons_ws_false c cs i st hc, he]
      have ht : (c :: cs).takeWhile rustIsWhitespace =
          c :: cs.takeWhile rustIsWhitespace := by
        simp [List.takeWhile_cons, hc]
      rw [ht]
      simp only [byteLen]
      rw [Nat.add_assoc]
    · obtain ⟨e, he⟩ := wordsAux_true_head cs (i + utf8Len c) i
      refine ⟨e, ?_⟩
      rw [wordsAux_cons_nws_false c cs i st (by simpa using hc), he]
      have ht : (c :: cs).takeWhile rustIsWhitespace = [] := by
        simp [List.takeWhile_cons, hc]
      rw [ht]
      simp [byteLen]

theorem wordsAux_last : ∀ (cs : List Char),
    (∀ i st, ((wordsAux cs i true st).getLastD (0, 0)).2 =
      i + byteLen (dropTrailP rustIsWhitespace cs))
    ∧ (∀ i st, (∃ c ∈ cs, ¬ rustIsWhitespace c = true) →
      ((wordsAux cs i false st).getLastD (0, 0)).2 =
      i + byteLen (dropTrailP rustIsWhitespace cs)) := by
  intro cs
  induction cs with
  | nil =>
    constructor
    · intro i st; simp [wordsAux, dropTrailP, byteLen]
    · intro i st h; simp at h
  | cons c cs ih =>
    have step : ∀ (d : Char) (l : List Char), ¬ rustIsWhitespace d = true →
        byteLen (dropTrailP rustIsWhitespace (d :: l)) =
          utf8Len d + byteLen (dropTrailP rustIsWhitespace l) := by
      intro d l hd
      rw [dropTrailP_cons_not_p rustIsWhitespace d l (by simpa using hd)]
      rfl
    constructor
    · intro i st
      by_cases hc : rustIsWhitespace c
      · by_cases hcs : ∃ d ∈ cs, ¬ rustIsWhitespace d = true
        · have hne := wordsAux_false_ne_nil cs (i + utf8Len c) st hcs
          rw [wordsAux_cons_ws_true c cs i st hc,
            List.getLastD_cons (0, 0) (st, i) _,
            getLastD_congr _ (st, i) (0, 0) hne, ih.2 (i + utf8Len c) st hcs]
          have hdtp : dropTrailP rustIsWhitespace cs ≠ [] := by
            rw [Ne, dropTrailP_eq_nil_iff]
            intro hall
            obtain ⟨d, hd, hdw⟩ := hcs
            exact hdw (hall d hd)
          rw [dropTrailP_cons_of_ne_nil rustIsWhitespace c cs hdtp]
          simp only [byteLen]
          omega
        · have hall : ∀ d ∈ cs, rustIsWhitespace d = true := by
            intro d hd
            by_contra hdw
            exact hcs ⟨d, hd, hdw⟩
          have hnil := wordsAux_all_ws cs (i + utf8Len c) st hall
          rw [wordsAux_cons_ws_true c cs i st hc,
            List.getLastD_cons (0, 0) (st, i) _, hnil]
          have h1 : dropTrailP rustIsWhitespace cs = [] :=
            (dropTrailP_eq_nil_iff rustIsWhitespace cs).mpr hall
          have h2 : dropTrailP rustIsWhitespace (c :: cs) = [] := by
            simp [dropTrailP, h1, hc]
          rw [h2]
          simp [byteLen, List.getLastD]
      · rw [wordsAux_cons_nws_true c cs i st (by simpa using hc),
          ih.1 (i + utf8Len c) st, step c cs hc]
        omega
    · intro i st hex
      by_cases hc : rustIsWhitespace c
      · have hcs : ∃ d ∈ cs, ¬ rustIsWhitespace d = true := by
          obtain ⟨d, hd, hdw⟩ := hex
          rcases List.mem_cons.mp hd with h1 | h1
          · exact absurd (h1 ▸ hc) hdw
          · exact ⟨d, h1, hdw⟩
        rw [wordsAux_cons_ws_false c cs i st hc,
          ih.2 (i + utf8Len c) st hcs]
        have hdtp : dropTrailP rustIsWhitespace cs ≠ [] := by
          rw [Ne, dropTrailP_eq_nil_iff]
          intro hall
          obtain ⟨d, hd, hdw⟩ := hcs
          exact hdw (hall d hd)
        rw [dropTrailP_cons_of_ne_nil rustIsWhitespace c cs hdtp]
        simp only [byteLen]
        omega
      · rw [wordsAux_cons_nws_false c cs i st (by simpa using hc),
          ih.1 (i + utf8Len c) i, step c cs hc]
        omega

theorem backExtend_zero : ∀ (s : List Char) (k : Nat),
    (∀ j, j < k → isSpaceAt s j = true) → backExtend s k = 0 := by
  intro s k
  induction k with
  | zero => intro _; rfl
  | succ k ih =>
    intro h
    simp only [backExtend, h k (Nat.lt_succ_self k), if_true]
    exact ih (fun j hj => h j (Nat.lt_succ_of_lt hj))

theorem isSpaceAt_pre : ∀ (pre rest : List Char) (j : Nat),
    (∀ c ∈ pre, rustIsWhitespace c = true ∧ utf8Len c = 1) →
    j < pre.length → isSpaceAt (pre ++ rest) j = true := by
  intro pre
  induction pre with
  | nil => intro rest j _ hj; simp at hj
  | cons c cs ih =>
    intro rest j h hj
    obtain ⟨hw, h1⟩ := h c (by simp)
    match j with
    | 0 => simpa [isSpaceAt] using hw
    | j + 1 =>
      have : isSpaceAt ((c :: cs) ++ rest) (j + 1) =
          isSpaceAt (cs ++ rest) j := by
        simp [isSpaceAt, h1]
      rw [this]
      exact ih rest j (fun d hd => h d (by simp [hd]))
        (by simp at hj; omega)

theorem sliceChars_prefix : ∀ (pre suf : List Char),
    sliceChars (pre ++ suf) 0 (byteLen pre) = pre := by
  intro pre
  induction pre with
  | nil =>
    intro suf
    cases suf with
    | nil => rfl
    | cons c cs => simp [sliceChars, byteLen]
  | cons c cs ih =>
    intro suf
    have hpos : 0 < utf8Len c + byteLen cs := by
      have := utf8Len_pos c
      omega
    simp only [List.cons_append, sliceChars, byteLen]
    rw [if_neg (by omega), if_pos hpos]
    have : utf8Len c + byteLen cs - utf8Len c = byteLen cs := by omega
    rw [this]
    exact congrArg (List.cons c) (ih suf)

/-- Claim C5 (amended): for text with at least one non-whitespace run whose
whitespace characters are all single-byte, `split_upto_n_by_word(text, 1)`
returns exactly one slice: the text with the trailing whitespace after its
last non-whitespace run removed (leading and inner whitespace all kept).
The unamended claim promised the slice equals the text itself. -/
theorem c5_single_group_amended (s : List Char)
    (hnw : ∃ c ∈ s, ¬ rustIsWhitespace c = true)
    (hws1 : ∀ c ∈ s, rustIsWhitespace c = true → utf8Len c = 1) :
    splitUptoNByWord s 1 = [dropTrailP rustIsWhitespace s] := by
  have hne : findWords s ≠ [] := wordsAux_false_ne_nil s 0 0 hnw
  have htot : ¬ (findWords s).length = 0 := by
    simpa [List.length_eq_zero] using hne
  have h1le : 1 ≤ (findWords s).length := by omega
  have hmin : min 1 (findWords s).length = 1 := by omega
  simp only [splitUptoNByWord, htot, if_false, hmin]
  have hrange : List.range 1 = [0] := rfl
  rw [hrange, List.map_cons, List.map_nil]
  -- the group's word indices: first word 0, last word total - 1
  have hsw : 0 * (findWords s).length / 1 = 0 := by simp
  have hew : (0 + 1) * (findWords s).length / 1 - 1 =
      (findWords s).length - 1 := by simp
  rw [hsw, hew]
  -- start byte: the byte length of the leading whitespace
  obtain ⟨e, hhead⟩ := wordsAux_false_head s 0 0 hnw
  have hgd0 : (findWords s).getD 0 (0, 0) =
      (byteLen (s.takeWhile rustIsWhitespace), e) := by
    have hhead2 : (findWords s).head? =
        some (0 + byteLen (s.takeWhile rustIsWhitespace), e) := hhead
    cases hx : findWords s with
    | nil => exact absurd hx hne
    | cons w rest =>
      rw [hx] at hhead2
      simp only [List.head?] at hhead2
      cases hhead2
      simp
  rw [hgd0]
  -- the backward extension absorbs the whole leading whitespace
  have hback : backExtend s (byteLen (s.takeWhile rustIsWhitespace)) = 0 := by
    have hall : ∀ c ∈ s.takeWhile rustIsWhitespace,
        rustIsWhitespace c = true ∧ utf8Len c = 1 := by
      intro c hc
      have hw := List.mem_takeWhile_imp hc
      have hmem : c ∈ s := by
        have hsplit := List.takeWhile_append_dropWhile rustIsWhitespace s
        rw [← hsplit]
        exact List.mem_append_left _ hc
      exact ⟨hw, hws1 c hmem hw⟩
    have hlen1 : byteLen (s.takeWhile rustIsWhitespace) =
        (s.takeWhile rustIsWhitespace).length :=
      byteLen_all_one _ (fun c hc => (hall c hc).2)
    rw [hlen1]
    apply backExtend_zero
    intro j hj
    have := isSpaceAt_pre (s.takeWhile rustIsWhitespace)
      (s.dropWhile rustIsWhitespace) j hall hj
    rwa [List.takeWhile_append_dropWhile] at this
  rw [hback]
  -- end byte: the byte length of the text without its trailing whitespace
  have hlast : ((findWords s).getD ((findWords s).length - 1) (0, 0)).2 =
      byteLen (dropTrailP rustIsWhitespace s) := by
    rw [getD_last (findWords s) (0, 0) hne]
    simpa using (wordsAux_last s).2 0 0 hnw
  rw [hlast]
  -- the slice from 0 to that byte is the text without trailing whitespace
  obtain ⟨suf, hsuf⟩ := dropTrailP_exists_suffix rustIsWhitespace s
  have hslice : sliceChars s 0 (byteLen (dropTrailP rustIsWhitespace s)) =
      dropTrailP rustIsWhitespace s := by
    generalize hdt : dropTrailP rustIsWhitespace s = dt at hsuf ⊢
    rw [hsuf]
    exact sliceChars_prefix dt suf
  rw [hslice]

/-- Claim C5, counterexample: on the text "a " (one word, one trailing
space) the single returned slice is "a", not the original text. -/
theorem c5_counterexample :
    splitUptoNByWord ['a', ' '] 1 ≠ [['a', ' ']]
    ∧ splitUptoNByWord ['a', ' '] 1 = [['a']] := by
  refine ⟨by decide, by decide⟩

/-- Claim C5, witness: the text " a b " keeps its leading and inner
whitespace and loses only the trailing space. -/
theorem c5_witness :
    splitUptoNByWord [' ', 'a', ' ', 'b', ' '] 1 =
      [dropTrailP rustIsWhitespace [' ', 'a', ' ', 'b', ' ']] :=
  c5_single_group_amended [' ', 'a', ' ', 'b', ' ']
    (by decide) (by decide)

/-!
`remove_tags` (src/lib.rs), modelled on UTF-8 byte lists.  `leadsWith`
is `starts_with` on byte slices; the current position `i` is represented
by the remaining suffix `text_bytes[i..]`.  The inner depth-tracking loop
is `rtInside`, the outer copy loop `rtOutside`; both carry fuel, one unit
per loop iteration, and `none` models an execution that does not finish.
In the copy branch the source decodes one whole character; `charLenAt`
recovers its byte length from the leading byte (on the valid UTF-8 input
the source guarantees, the position there is a character boundary, so the
continuation-byte case of `charLenAt` is unreachable).
-/

/-- `starts_with` for byte sequences: does the second list begin with the
first? -/
def leadsWith : List Nat → List Nat → Bool
  | [], _ => true
  | _ :: _, [] => false
  | x :: xs, y :: ys => x = y && leadsWith xs ys

/-- Does `pat` occur as a contiguous subsequence of the list? -/
def occursIn : List Nat → List Nat → Bool
  | pat, [] => leadsWith pat []
  | pat, b :: t => leadsWith pat (b :: t) || occursIn pat t

/-- Byte length of the UTF-8 character starting with byte `b` (Rust
`char::len_utf8` read off the leading byte; a continuation byte, which
cannot start a character of valid UTF-8, is given length 1). -/
def charLenAt (b : Nat) : Nat :=
  if b < 0x80 then 1
  else if b < 0xC0 then 1
  else if b < 0xE0 then 2
  else if b < 0xF0 then 3
  else 4

/-- The inner `while i < len && depth > 0` loop of `remove_tags`: returns
the remaining suffix and the final depth when the loop exits. -/
def rtInside : Nat → List Nat → List Nat → List Nat → Nat →
    Option (List Nat × Nat)
  | 0, _, _, _, _ => none
  | _ + 1, _, _, rem, 0 => some (rem, 0)
  | _ + 1, _, _, [], d + 1 => some ([], d + 1)
  | fuel + 1, opn, cls, b :: t, d + 1 =>
    if leadsWith opn (b :: t) then
      rtInside fuel opn cls ((b :: t).drop opn.length) (d + 2)
    else if leadsWith cls (b :: t) then
      rtInside fuel opn cls ((b :: t).drop cls.length) d
    else rtInside fuel opn cls t (d + 1)

/-- The outer loop of `remove_tags`: copy characters until an open marker
matches, skip the marked region with `rtInside`, and on an unmatched open
marker (final depth still positive) drop the remainder. -/
def rtOutside : Nat → List Nat → List Nat → List Nat → Option (List Nat)
  | 0, _, _, _ => none
  | _ + 1, _, _, [] => some []
  | fuel + 1, opn, cls, b :: t =>
    if leadsWith opn (b :: t) then
      match rtInside fuel opn cls ((b :: t).drop opn.length) 1 with
      | none => none
      | some (rem2, d) =>
        if d = 0 then rtOutside fuel opn cls rem2 else some []
    else
      match rtOutside fuel opn cls ((b :: t).drop (charLenAt b)) with
      | none => none
      | some out => some ((b :: t).take (charLenAt b) ++ out)

theorem charLenAt_pos (b : Nat) : 1 ≤ charLenAt b := by
  simp only [charLenAt]
  split
  · omega
  · split
    · omega
    · split
      · omega
      · split <;> omega

theorem occursIn_false_tail (pat b t) (h : occursIn pat (b :: t) = false) :
    occursIn pat t = false := by
  simp only [occursIn, Bool.or_eq_false_iff] at h
  exact h.2

theorem occursIn_false_drop : ∀ (t : List Nat) (k : Nat) (pat : List Nat),
    occursIn pat t = false → occursIn pat (t.drop k) = false := by
  intro t
  induction t with
  | nil => intro k pat h; simpa [List.drop_nil] using h
  | cons b t ih =>
    intro k pat h
    match k with
    | 0 => exact h
    | k + 1 => exact ih k pat (occursIn_false_tail pat b t h)

theorem leadsWith_false_of_occursIn_false (pat l : List Nat)
    (h : occursIn pat l = false) : leadsWith pat l = false := by
  cases l with
  | nil => simpa [occursIn] using h
  | cons b t =>
    simp only [occursIn, Bool.or_eq_false_iff] at h
    exact h.1

/-- When the open marker occurs nowhere in the text, `remove_tags` copies
the text unchanged (fuel one more than the byte length suffices). -/
theorem rtOutside_no_occurrence : ∀ (fuel : Nat) (t opn cls : List Nat),
    t.length < fuel → occursIn opn t = false →
    rtOutside fuel opn cls t = some t := by
  intro fuel
  induction fuel with
  | zero => intro t opn cls hlen _; omega
  | succ fuel ih =>
    intro t opn cls hlen hocc
    match t with
    | [] => rfl
    | b :: t =>
      have hlw : leadsWith opn (b :: t) = false :=
        leadsWith_false_of_occursIn_false opn (b :: t) hocc
      have hpos := charLenAt_pos b
      have hdrop : ((b :: t).drop (charLenAt b)).length < fuel := by
        have hld := List.length_drop (charLenAt b) (b :: t)
        simp only [List.length_cons] at hlen hld ⊢
        omega
      have hocc2 : occursIn opn ((b :: t).drop (charLenAt b)) = false :=
        occursIn_false_drop (b :: t) (charLenAt b) opn hocc
      simp only [rtOutside, hlw, Bool.false_eq_true, if_false]
      rw [ih ((b :: t).drop (charLenAt b)) opn cls hdrop hocc2]
      show some ((b :: t).take (charLenAt b) ++ (b :: t).drop (charLenAt b))
        = some (b :: t)
      rw [List.take_append_drop]

/-- Claim C8 (amended): whenever the first pass's output contains no
occurrence of the open marker — the premise the claim asserts — running
`remove_tags` on that output returns it unchanged, so the second
application is the identity there.  (The unamended claim fails: the first
pass can splice an open marker together from bytes on either side of a
removed region.) -/
theorem c8_remove_tags_amended (text opn cls r : List Nat) (fuel : Nat)
    (hfst : rtOutside fuel opn cls text = some r)
    (hno : occursIn opn r = false) :
    rtOutside (r.length + 1) opn cls r = some r :=
  rtOutside_no_occurrence (r.length + 1) r opn cls
    (Nat.lt_succ_self _) hno

/-- Claim C8, counterexample: text "aabcb" with open marker "ab" and close
marker "c".  The first pass yields "ab" (the copied "a" and trailing "b"
splice into an open marker), and the second pass removes it, returning "".
Bytes: a = 97, b = 98, c = 99. -/
theorem c8_counterexample :
    rtOutside 10 [97, 98] [99] [97, 97, 98, 99, 98] = some [97, 98]
    ∧ rtOutside 10 [97, 98] [99] [97, 98] = some []
    ∧ ([97, 98] : List Nat) ≠ [] := by
  refine ⟨by decide, by decide, by decide⟩

/-- Claim C8, witness: text "a<t>x</t>b" with markers "<t>", "</t>": the
first pass gives "ab", which contains no marker, and the second pass
returns it unchanged. -/
theorem c8_witness :
    rtOutside ([97, 98].length + 1) [60, 116, 62] [60, 47, 116, 62]
      [97, 98] = some [97, 98] :=
  c8_remove_tags_amended
    [97, 60, 116, 62, 120, 60, 47, 116, 62, 98]
    [60, 116, 62] [60, 47, 116, 62] [97, 98] 20
    (by decide) (by decide)

theorem rtInside_empty_open : ∀ (fuel : Nat) (cls rem : List Nat) (d : Nat),
    rem ≠ [] → rtInside fuel [] cls rem (d + 1) = none := by
  intro fuel
  induction fuel with
  | zero => intro cls rem d _; rfl
  | succ fuel ih =>
    intro cls rem d hrem
    match rem with
    | [] => exact absurd rfl hrem
    | b :: t =>
      have : leadsWith [] (b :: t) = true := rfl
      simp only [rtInside, this, if_true, List.drop_zero]
      exact ih cls (b :: t) (d + 1) hrem

/-- Claim C9: with an empty open marker and a non-empty text ("x", close
marker "c") `remove_tags` never terminates: the empty marker matches at
the start, and inside the removal loop it matches again at every
iteration, incrementing the depth without advancing, so no amount of fuel
finishes the loop.  The claim said the call terminates and returns the
text's empty prefix. -/
theorem c9_empty_open_marker_diverges :
    ∀ fuel, rtOutside fuel [] [99] [120] = none := by
  intro fuel
  match fuel with
  | 0 => rfl
  | fuel + 1 =>
    have h1 : leadsWith [] [120] = true := rfl
    simp only [rtOutside, h1, if_true]
    have h2 : rtInside fuel [] [99] [120] 1 = none := by
      simpa using rtInside_empty_open fuel [99] [120] 0 (by simp)
    simp only [List.length_nil, List.drop_zero]
    rw [h2]

/-!
`get_first_of_split` (src/lib.rs), modelled on UTF-8 byte lists.  `find`
returns the lowest byte position of a substring match (`findSub`); the
source then slices `s[..p]` and `s[p + 1..]` — one byte past the match,
regardless of the separator's length.  Rust string slicing panics when an
index is not a character boundary (`isCharBoundary` is
`str::is_char_boundary`); a panic is modelled as `none`.
-/

/-- UTF-8 encoding of one scalar value. -/
def utf8EncodeChar (c : Char) : List Nat :=
  if c.toNat < 0x80 then [c.toNat]
  else if c.toNat < 0x800 then
    [0xC0 + c.toNat / 64, 0x80 + c.toNat % 64]
  else if c.toNat < 0x10000 then
    [0xE0 + c.toNat / 4096, 0x80 + c.toNat / 64 % 64, 0x80 + c.toNat % 64]
  else
    [0xF0 + c.toNat / 262144, 0x80 + c.toNat / 4096 % 64,
      0x80 + c.toNat / 64 % 64, 0x80 + c.toNat % 64]

/-- UTF-8 encoding of a text. -/
def utf8Encode : List Char → List Nat
  | [] => []
  | c :: cs => utf8EncodeChar c ++ utf8Encode cs

/-- Rust `str::find(&str)`: the lowest byte index where the pattern's byte
sequence occurs, `none` when it occurs nowhere. -/
def findSub : List Nat → List Nat → Option Nat
  | [], pat => if leadsWith pat [] then some 0 else none
  | b :: t, pat =>
    if leadsWith pat (b :: t) then some 0
    else (findSub t pat).map (fun k => k + 1)

/-- Rust `str::is_char_boundary`: the index is the length, or in range with
a byte that is not a UTF-8 continuation byte. -/
def isCharBoundary (s : List Nat) (i : Nat) : Bool :=
  if i = 0 then true
  else if i = s.length then true
  else if s.length < i then false
  else if s.getD i 0 < 0x80 then true
  else if 0xC0 ≤ s.getD i 0 then true
  else false

/-- `get_first_of_split(s, separator)` (src/lib.rs): `none` models the
slicing panic at a non-boundary index. -/
def getFirstOfSplit (s sep : List Nat) : Option (List Nat × List Nat) :=
  match findSub s sep with
  | none => some (s, [])
  | some p =>
    if isCharBoundary s p then
      if isCharBoundary s (p + 1) then some (s.take p, s.drop (p + 1))
      else none
    else none

theorem utf8EncodeChar_ascii (c : Char) (h : c.toNat < 0x80) :
    utf8EncodeChar c = [c.toNat] := by
  simp [utf8EncodeChar, h]

theorem utf8EncodeChar_ne_nil (c : Char) : utf8EncodeChar c ≠ [] := by
  simp only [utf8EncodeChar]
  split
  · simp
  · split
    · simp
    · split <;> simp

/-- Every byte of a multi-byte encoding is at least 0x80. -/
theorem utf8EncodeChar_multibyte_ge (c : Char) (h : 0x80 ≤ c.toNat) :
    ∀ b ∈ utf8EncodeChar c, 0x80 ≤ b := by
  intro b hb
  simp only [utf8EncodeChar] at hb
  split at hb
  · rename_i hlt
    omega
  · split at hb
    · simp only [List.mem_cons, List.not_mem_nil, or_false] at hb
      rcases hb with h1 | h1 <;> omega
    · split at hb
      · simp only [List.mem_cons, List.not_mem_nil, or_false] at hb
        rcases hb with h1 | h1 | h1 <;> omega
      · simp only [List.mem_cons, List.not_mem_nil, or_false] at hb
        rcases hb with h1 | h1 | h1 | h1 <;> omega

/-- The first byte of any character's encoding is not a continuation
byte. -/
theorem utf8EncodeChar_head_not_cont (c : Char) :
    (utf8EncodeChar c).getD 0 0 < 0x80 ∨ 0xC0 ≤ (utf8EncodeChar c).getD 0 0 := by
  simp only [utf8EncodeChar]
  split
  · rename_i h
    left
    simpa [List.getD_cons_zero] using h
  · split
    · right
      simp only [List.getD_cons_zero]
      omega
    · split
      · right
        simp only [List.getD_cons_zero]
        omega
      · right
        simp only [List.getD_cons_zero]
        omega

theorem getD_append_left : ∀ (l1 l2 : List Nat) (i : Nat), i < l1.length →
    (l1 ++ l2).getD i 0 = l1.getD i 0 := by
  intro l1
  induction l1 with
  | nil => intro l2 i h; simp at h
  | cons x xs ih =>
    intro l2 i h
    match i with
    | 0 => rfl
    | i + 1 =>
      simp only [List.cons_append, List.getD_cons_succ]
      exact ih l2 i (by simp at h; omega)

theorem getD_append_right : ∀ (l1 l2 : List Nat) (i : Nat), l1.length ≤ i →
    (l1 ++ l2).getD i 0 = l2.getD (i - l1.length) 0 := by
  intro l1
  induction l1 with
  | nil => intro l2 i _; simp
  | cons x xs ih =>
    intro l2 i h
    match i with
    | 0 => simp at h
    | i + 1 =>
      simp only [List.cons_append, List.getD_cons_succ, List.length_cons]
      rw [ih l2 i (by simp at h; omega)]
      congr 1
      omega

theorem getD_mem : ∀ (l : List Nat) (i : Nat), i < l.length →
    l.getD i 0 ∈ l := by
  intro l
  induction l with
  | nil => intro i h; simp at h
  | cons x xs ih =>
    intro i h
    match i with
    | 0 => simp
    | i + 1 =>
      simp only [List.getD_cons_succ]
      exact List.mem_cons_of_mem x (ih i (by simp at h; omega))

/-- In valid UTF-8, the byte after a one-byte (ASCII) character begins a
new character: an in-range byte following a byte below 0x80 is never a
continuation byte. -/
theorem utf8Encode_after_ascii : ∀ (s : List Char) (p : Nat),
    (utf8Encode s).getD p 0 < 0x80 → p + 1 < (utf8Encode s).length →
    ((utf8Encode s).getD (p + 1) 0 < 0x80
      ∨ 0xC0 ≤ (utf8Encode s).getD (p + 1) 0) := by
  intro s
  induction s with
  | nil => intro p _ h2; simp [utf8Encode] at h2
  | cons c cs ih =>
    intro p h1 h2
    have hk := utf8EncodeChar_ne_nil c
    have hkpos : 0 < (utf8EncodeChar c).length := List.length_pos.mpr hk
    simp only [utf8Encode] at h1 h2 ⊢
    by_cases hp : p + 1 < (utf8EncodeChar c).length
    · -- both bytes inside the first character: it is multi-byte, so the
      -- hypothesis byte < 0x80 is impossible
      exfalso
      rw [getD_append_left _ _ p (by omega)] at h1
      by_cases hc : c.toNat < 0x80
      · rw [utf8EncodeChar_ascii c hc] at hp
        simp at hp
      · have := utf8EncodeChar_multibyte_ge c (by omega)
            ((utf8EncodeChar c).getD p 0)
            (getD_mem _ _ (by omega))
        omega
    · by_cases hpe : p + 1 = (utf8EncodeChar c).length
      · -- the next byte is the first byte of the remaining encoding
        rw [getD_append_right _ _ (p + 1) (by omega), hpe, Nat.sub_self]
        cases hcs : cs with
        | nil =>
          exfalso
          rw [List.length_append] at h2
          simp [utf8Encode, hcs] at h2
          omega
        | cons d ds =>
          simp only [utf8Encode]
          rw [getD_append_left _ _ 0
            (List.length_pos.mpr (utf8EncodeChar_ne_nil d))]
          exact utf8EncodeChar_head_not_cont d
      · -- both bytes lie in the tail encoding
        have hge : (utf8EncodeChar c).length ≤ p := by omega
        rw [getD_append_right _ _ p hge] at h1
        rw [getD_append_right _ _ (p + 1) (by omega)]
        have hlen : p + 1 - (utf8EncodeChar c).length
            = (p - (utf8EncodeChar c).length) + 1 := by omega
        rw [hlen]
        apply ih _ h1
        rw [List.length_append] at h2
        omega

theorem findSub_spec : ∀ (h pat : List Nat) (p : Nat),
    findSub h pat = some p → leadsWith pat (h.drop p) = true ∧ p ≤ h.length := by
  intro h
  induction h with
  | nil =>
    intro pat p hf
    simp only [findSub] at hf
    split at hf
    · cases hf
      exact ⟨by assumption, Nat.le_refl 0⟩
    · cases hf
  | cons b t ih =>
    intro pat p hf
    simp only [findSub] at hf
    split at hf
    · cases hf
      exact ⟨by assumption, by simp⟩
    · cases hq : findSub t pat with
      | none => rw [hq] at hf; cases hf
      | some q =>
        rw [hq] at hf
        have hf2 : some (q + 1) = some p := hf
        cases hf2
        obtain ⟨h1, h2⟩ := ih pat q hq
        exact ⟨by simpa using h1, by simp; omega⟩

theorem isCharBoundary_true_of (s : List Nat) (i : Nat)
    (h : i = 0 ∨ i = s.length
      ∨ (i < s.length ∧ (s.getD i 0 < 0x80 ∨ 0xC0 ≤ s.getD i 0))) :
    isCharBoundary s i = true := by
  simp only [isCharBoundary]
  split
  · rfl
  · split
    · rfl
    · split
      · rename_i h1 h2 h3
        rcases h with h | h | h
        · omega
        · omega
        · omega
      · split
        · rfl
        · split
          · rfl
          · rename_i h1 h2 h3 h4 h5
            rcases h with h | h | ⟨h6, h7 | h7⟩ <;> omega

theorem leadsWith_head : ∀ (x : Nat) (xs l : List Nat),
    leadsWith (x :: xs) l = true → l.getD 0 0 = x ∧ l ≠ [] := by
  intro x xs l h
  cases l with
  | nil => simp [leadsWith] at h
  | cons y ys =>
    simp only [leadsWith, Bool.and_eq_true, decide_eq_true_eq] at h
    exact ⟨h.1.symm, by simp⟩

theorem getD_drop : ∀ (l : List Nat) (p : Nat), (l.drop p).getD 0 0 = l.getD p 0 := by
  intro l
  induction l with
  | nil => intro p; simp
  | cons x xs ih =>
    intro p
    match p with
    | 0 => rfl
    | p + 1 => simpa using ih p

/-- Claim C10: when the separator is found at byte position p, the second
component starts at byte p + 1 (not p + separator length); the call is
panic-free for every input when the separator's first character is a
single-byte (ASCII) character; and with a separator beginning with a
multi-byte character the slice at p + 1 can fall inside that character's
encoding and the call panics (text "é", separator "é"). -/
theorem c10_get_first_of_split :
    (∀ s sep p pre post, findSub s sep = some p →
      getFirstOfSplit s sep = some (pre, post) →
      pre = s.take p ∧ post = s.drop (p + 1))
    ∧ (∀ (s : List Char) (c : Char) (cs : List Char), c.toNat < 0x80 →
      getFirstOfSplit (utf8Encode s) (utf8Encode (c :: cs)) ≠ none)
    ∧ getFirstOfSplit (utf8Encode [Char.ofNat 0xE9])
        (utf8Encode [Char.ofNat 0xE9]) = none := by
  refine ⟨?_, ?_, by decide⟩
  · intro s sep p pre post hf hg
    simp only [getFirstOfSplit, hf] at hg
    split at hg
    · split at hg
      · cases hg
        exact ⟨rfl, rfl⟩
      · cases hg
    · cases hg
  · intro s c cs hc
    simp only [getFirstOfSplit]
    cases hf : findSub (utf8Encode s) (utf8Encode (c :: cs)) with
    | none => simp
    | some p =>
      obtain ⟨hlw, hple⟩ := findSub_spec _ _ p hf
      have henc : utf8Encode (c :: cs) = c.toNat :: utf8Encode cs := by
        simp [utf8Encode, utf8EncodeChar_ascii c hc]
      rw [henc] at hlw
      obtain ⟨hhead, hne⟩ := leadsWith_head _ _ _ hlw
      rw [getD_drop] at hhead
      have hplt : p < (utf8Encode s).length := by
        rcases Nat.lt_or_ge p (utf8Encode s).length with h | h
        · exact h
        · exfalso
          rw [List.drop_eq_nil_of_le h] at hne
          exact hne rfl
      have hbp : (utf8Encode s).getD p 0 < 0x80 := by
        rw [hhead]; exact hc
      have hb1 : isCharBoundary (utf8Encode s) p = true :=
        isCharBoundary_true_of _ _
          (Or.inr (Or.inr ⟨hplt, Or.inl hbp⟩))
      have hb2 : isCharBoundary (utf8Encode s) (p + 1) = true := by
        rcases Nat.lt_or_ge (p + 1) (utf8Encode s).length with h | h
        · exact isCharBoundary_true_of _ _
            (Or.inr (Or.inr ⟨h, utf8Encode_after_ascii s p hbp h⟩))
        · exact isCharBoundary_true_of _ _ (Or.inr (Or.inl (by omega)))
      simp [hb1, hb2]

/-- Claim C10, witness: text "a=b", separator "=" (ASCII), split without
panic; the separator is found at byte 1 and the parts are "a" and "b". -/
theorem c10_witness :
    getFirstOfSplit (utf8Encode ['a', '=', 'b']) (utf8Encode ['='])
      ≠ none :=
  c10_get_first_of_split.2.1 ['a', '=', 'b'] '=' [] (by decide)

/-- Claim C2: `split_into_chunks` does not terminate on a budget of 0 (text
"a"), nor on a budget smaller than the byte length of the character at the
current offset (budget 1, text "é"): every iteration pushes an empty chunk
and leaves the offset unchanged, so no amount of fuel finishes the loop.
This contradicts the claim (and the spec's termination requirement). -/
theorem c2_pathological_budget_diverges :
    (∀ fuel, splitIntoChunksF fuel 0 [Char.ofNat 97] = none)
    ∧ (∀ fuel, splitIntoChunksF fuel 1 [Char.ofNat 0xE9] = none) := by
  constructor
  · intro fuel
    exact splitIntoChunksF_stuck fuel 0 [Char.ofNat 97] (by simp) (by decide)
  · intro fuel
    exact splitIntoChunksF_stuck fuel 1 [Char.ofNat 0xE9] (by simp) (by decide)
